import Mathlib

/-!
Verification of the trajectory-processing pipeline of `src/main.py` (a
policy-gradient training loop).  The numeric arrays of the source are
embedded as lists over a field `α`; theorems about exact arithmetic are
stated over `ℚ`, and the advantage-normalization pass (which needs a
square root for `np.std`) is stated over `ℝ`.

A trajectory is the dictionary built by `run_policy` and mutated by the
processing passes; keys added later (`disc_sum_rew`, `values`,
`advantages`) are `Option` fields, `none` standing for an absent key.
Passes that mutate the trajectory list in place are embedded as functions
returning the updated list; a pass that would raise `KeyError` on a
missing key returns `none`.
-/

structure Traj (α : Type) where
  observes : List (List α)
  actions : List (List α)
  rewards : List α
  disc_sum_rew : Option (List α) := none
  values : Option (List α) := none
  advantages : Option (List α) := none

/-- First-order IIR filter: `scipy.signal.lfilter([1.0], [1.0, -gamma], xs)`
with initial state `p`, i.e. `y[n] = x[n] + gamma * y[n-1]`. -/
def lfilter1 {α : Type} [Field α] (γ : α) : List α → α → List α
  | [], _ => []
  | x :: xs, p => (x + γ * p) :: lfilter1 γ xs (x + γ * p)

/-- Body of `add_disc_sum_rew` for one trajectory's reward list:
scale by `(1 - gamma)`, reverse, filter, reverse back. -/
def discSumRew {α : Type} [Field α] (γ : α) (rewards : List α) : List α :=
  (lfilter1 γ ((rewards.map (fun r => r * (1 - γ))).reverse) 0).reverse

/-- One iteration of the loop in `add_disc_sum_rew`. -/
def addDiscTraj {α : Type} [Field α] (γ : α) (t : Traj α) : Traj α :=
  { t with disc_sum_rew := some (discSumRew γ t.rewards) }

/-- `add_disc_sum_rew(trajectories, gamma)` from `src/main.py`. -/
def add_disc_sum_rew {α : Type} [Field α] (trajectories : List (Traj α)) (γ : α) :
    List (Traj α) :=
  trajectories.map (addDiscTraj γ)

/-- `add_value(trajectories, val_func, gamma)` from `src/main.py`; the value
function is embedded by its `predict` method and `γ` is the (unused) last
parameter. -/
def add_value {α : Type} [Field α] (trajectories : List (Traj α))
    (predict : List (List α) → List α) (γ : α) : List (Traj α) :=
  trajectories.map (fun t => { t with values := some (predict t.observes) })

/-- Body of `add_advantage` for one trajectory:
`trajectory['advantages'] = trajectory['disc_sum_rew'] - trajectory['values']`,
a `KeyError` (here `none`) when either key is missing. -/
def addAdvTraj {α : Type} [Field α] (t : Traj α) : Option (Traj α) :=
  match t.disc_sum_rew, t.values with
  | some d, some v => some { t with advantages := some (List.zipWith (fun a b => a - b) d v) }
  | _, _ => none

/-- `add_advantage(trajectories)` from `src/main.py`. -/
def add_advantage {α : Type} [Field α] : List (Traj α) → Option (List (Traj α))
  | [] => some []
  | t :: ts => do
    let t' ← addAdvTraj t
    let ts' ← add_advantage ts
    pure (t' :: ts')

/-! ### Basic length and shape lemmas -/

theorem lfilter1_length {α : Type} [Field α] (γ : α) :
    ∀ (l : List α) (p : α), (lfilter1 γ l p).length = l.length
  | [], _ => rfl
  | x :: xs, p => by simp [lfilter1, lfilter1_length γ xs]

theorem discSumRew_length {α : Type} [Field α] (γ : α) (r : List α) :
    (discSumRew γ r).length = r.length := by
  simp [discSumRew, lfilter1_length]

/-- `headD` is `getD 0`. -/
theorem headD_eq_getD_zero {α : Type} (l : List α) (d : α) :
    l.headD d = l.getD 0 d := by
  cases l <;> rfl

/-- `getLastD` through `reverse`. -/
theorem getLastD_eq_reverse_headD {α : Type} (l : List α) (d : α) :
    l.getLastD d = l.reverse.headD d := by
  rw [List.getLastD_eq_getLast?, ← List.head?_reverse]
  cases h : l.reverse <;> simp [h]

/-! ### The backward recursion computed by the reversed filter -/

/-- Backward recursion `d_t = x_t + γ·d_{t+1}` (with `d` empty past the end);
this is what the reverse/filter/reverse composition computes on the scaled
rewards. -/
def discRec {α : Type} [Field α] (γ : α) : List α → List α
  | [] => []
  | x :: xs => (x + γ * (discRec γ xs).headD 0) :: discRec γ xs

theorem lfilter1_append {α : Type} [Field α] (γ : α) :
    ∀ (xs ys : List α) (p : α),
      lfilter1 γ (xs ++ ys) p =
        lfilter1 γ xs p ++ lfilter1 γ ys ((lfilter1 γ xs p).getLastD p)
  | [], ys, p => by simp [lfilter1]
  | x :: xs, ys, p => by
    simp only [List.cons_append, lfilter1, List.append_eq,
      lfilter1_append γ xs ys (x + γ * p), List.getLastD_cons]

theorem lfilter1_reverse_eq_discRec {α : Type} [Field α] (γ : α) :
    ∀ l : List α, (lfilter1 γ l.reverse 0).reverse = discRec γ l
  | [] => rfl
  | x :: xs => by
    have ih := lfilter1_reverse_eq_discRec γ xs
    rw [List.reverse_cons, lfilter1_append]
    have hsing : ∀ p : α, lfilter1 γ [x] p = [x + γ * p] := fun p => rfl
    rw [hsing, List.reverse_append]
    have hq : (lfilter1 γ xs.reverse 0).getLastD 0 = (discRec γ xs).headD 0 := by
      rw [getLastD_eq_reverse_headD, ih]
    rw [hq, ih]
    rfl

theorem discSumRew_eq_discRec {α : Type} [Field α] (γ : α) (r : List α) :
    discSumRew γ r = discRec γ (r.map (fun x => x * (1 - γ))) := by
  rw [discSumRew, lfilter1_reverse_eq_discRec]

theorem discRec_length {α : Type} [Field α] (γ : α) :
    ∀ l : List α, (discRec γ l).length = l.length
  | [] => rfl
  | _ :: xs => by simp [discRec, discRec_length γ xs]

theorem discRec_getD {α : Type} [Field α] (γ : α) :
    ∀ (l : List α) (i : ℕ), i + 1 < l.length →
      (discRec γ l).getD i 0 = l.getD i 0 + γ * (discRec γ l).getD (i + 1) 0
  | [], i, h => by simp at h
  | x :: xs, 0, h => by
    simp only [discRec, List.getD_cons_zero, List.getD_cons_succ]
    rw [headD_eq_getD_zero]
  | x :: xs, i + 1, h => by
    simp only [discRec, List.getD_cons_succ]
    exact discRec_getD γ xs i (by simpa using Nat.lt_of_succ_lt_succ h)

theorem discRec_last {α : Type} [Field α] (γ : α) :
    ∀ l : List α, l ≠ [] →
      (discRec γ l).getD (l.length - 1) 0 = l.getD (l.length - 1) 0
  | [], h => absurd rfl h
  | [x], _ => by simp [discRec]
  | x :: y :: xs, _ => by
    have ih := discRec_last γ (y :: xs) (by simp)
    have hlen : (x :: y :: xs).length - 1 = ((y :: xs).length - 1) + 1 := by
      simp
    rw [hlen]
    simpa only [discRec, List.getD_cons_succ] using ih

/-- `getD` through a scale-by-`c` map (the default `0` is preserved). -/
theorem getD_map_mul {α : Type} [Field α] (c : α) (r : List α) (i : ℕ) :
    (r.map (fun x => x * c)).getD i 0 = r.getD i 0 * c := by
  have h := List.getD_map (l := r) (n := i) (f := fun x => x * c) (d := (0 : α))
  simpa using h

/-! ### Fixtures for concrete witnesses -/

/-- A tiny concrete two-step trajectory. -/
def tA : Traj ℚ := { observes := [[1], [2]], actions := [[0], [0]], rewards := [1, 2] }

theorem lfilter1_replicate_zero {α : Type} [Field α] (γ : α) :
    ∀ n : ℕ, lfilter1 γ (List.replicate n 0) 0 = List.replicate n 0
  | 0 => rfl
  | n + 1 => by
    simp [List.replicate, lfilter1, lfilter1_replicate_zero γ n]

theorem discSumRew_one {α : Type} [Field α] (r : List α) :
    discSumRew 1 r = List.replicate r.length 0 := by
  unfold discSumRew
  have hmap : r.map (fun x => x * (1 - 1)) = List.replicate r.length 0 := by
    simp
  rw [hmap, List.reverse_replicate, lfilter1_replicate_zero, List.reverse_replicate]

/-- C1: for γ ∈ (0,1), `add_disc_sum_rew` attaches to every trajectory a
`disc_sum_rew` list of the same length as its rewards, satisfying the
backward recursion `d_t = (1-γ)·r_t + γ·d_{t+1}` with
`d_{T-1} = (1-γ)·r_{T-1}`. -/
theorem claim_C1 (γ : ℚ) (h0 : 0 < γ) (h1 : γ < 1) (ts : List (Traj ℚ)) (t' : Traj ℚ)
    (ht : t' ∈ add_disc_sum_rew ts γ) :
    ∃ d : List ℚ, t'.disc_sum_rew = some d ∧ d.length = t'.rewards.length ∧
      (∀ i : ℕ, i + 1 < d.length →
        d.getD i 0 = (1 - γ) * t'.rewards.getD i 0 + γ * d.getD (i + 1) 0) ∧
      (t'.rewards ≠ [] →
        d.getD (d.length - 1) 0 = (1 - γ) * t'.rewards.getD (t'.rewards.length - 1) 0) := by
  rcases List.mem_map.mp ht with ⟨t, -, rfl⟩
  have hrew : (addDiscTraj γ t).rewards = t.rewards := rfl
  refine ⟨discSumRew γ t.rewards, rfl, ?_, ?_, ?_⟩
  · rw [hrew]; exact discSumRew_length γ t.rewards
  · intro i hi
    rw [discSumRew_length] at hi
    rw [hrew, discSumRew_eq_discRec]
    have hb : i + 1 < (t.rewards.map (fun x => x * (1 - γ))).length := by
      simpa using hi
    rw [discRec_getD γ _ i hb, getD_map_mul, mul_comm]
  · intro hne
    rw [hrew] at hne ⊢
    rw [discSumRew_length, discSumRew_eq_discRec]
    have hne' : t.rewards.map (fun x => x * (1 - γ)) ≠ [] := by
      simpa using hne
    have hlast := discRec_last γ (t.rewards.map (fun x => x * (1 - γ))) hne'
    rw [List.length_map] at hlast
    rw [hlast, getD_map_mul, mul_comm]

theorem claim_C1_wit :
    ∃ d : List ℚ, (addDiscTraj (1/2) tA).disc_sum_rew = some d ∧
      d.length = (addDiscTraj (1/2) tA).rewards.length ∧
      (∀ i : ℕ, i + 1 < d.length →
        d.getD i 0 = (1 - 1/2) * (addDiscTraj (1/2) tA).rewards.getD i 0 +
          1/2 * d.getD (i + 1) 0) ∧
      ((addDiscTraj (1/2) tA).rewards ≠ [] →
        d.getD (d.length - 1) 0 =
          (1 - 1/2) * (addDiscTraj (1/2) tA).rewards.getD
            ((addDiscTraj (1/2) tA).rewards.length - 1) 0) :=
  claim_C1 (1/2) (by norm_num) (by norm_num) [tA] _ (by simp [add_disc_sum_rew])

/-- C2: for γ = 1 the `(1-γ)` scaling degenerates and `add_disc_sum_rew`
attaches the all-zero list of the trajectory's length. -/
theorem claim_C2 (ts : List (Traj ℚ)) (t' : Traj ℚ) (ht : t' ∈ add_disc_sum_rew ts 1) :
    t'.disc_sum_rew = some (List.replicate t'.rewards.length 0) := by
  rcases List.mem_map.mp ht with ⟨t, -, rfl⟩
  show some (discSumRew 1 t.rewards) = _
  rw [discSumRew_one]
  rfl

theorem claim_C2_wit :
    (addDiscTraj 1 tA).disc_sum_rew =
      some (List.replicate (addDiscTraj 1 tA).rewards.length 0) :=
  claim_C2 [tA] _ (by simp [add_disc_sum_rew])

/-! ### add_advantage: elementwise subtraction -/

/-- Default trajectory used only as the `getD` fallback. -/
def dummyTraj {α : Type} : Traj α := { observes := [], actions := [], rewards := [] }

theorem zipWith_sub_getD {α : Type} [Field α] :
    ∀ (d v : List α), d.length = v.length → ∀ j : ℕ,
      (List.zipWith (fun a b => a - b) d v).getD j 0 = d.getD j 0 - v.getD j 0
  | [], [], _, j => by simp
  | [], _ :: _, h, _ => by simp at h
  | _ :: _, [], h, _ => by simp at h
  | x :: xs, y :: ys, h, 0 => by simp
  | x :: xs, y :: ys, h, j + 1 => by
    simp only [List.zipWith_cons_cons, List.getD_cons_succ]
    exact zipWith_sub_getD xs ys (by simpa using h) j

/-- C3: when every trajectory of the batch carries `disc_sum_rew` and
`values`, `add_advantage` succeeds and attaches to each trajectory exactly
the elementwise difference `disc_sum_rew - values` (no clipping), of the
common length `T`. -/
theorem claim_C3 (ts : List (Traj ℚ))
    (h : ∀ t ∈ ts, ∃ d v, t.disc_sum_rew = some d ∧ t.values = some v) :
    ∃ ts', add_advantage ts = some ts' ∧ ts'.length = ts.length ∧
      ∀ (i : ℕ) (d v : List ℚ),
        (ts.getD i dummyTraj).disc_sum_rew = some d →
        (ts.getD i dummyTraj).values = some v →
        ∃ a, (ts'.getD i dummyTraj).advantages = some a ∧
          a = List.zipWith (fun x y => x - y) d v ∧
          (d.length = v.length → a.length = d.length ∧
            ∀ j : ℕ, a.getD j 0 = d.getD j 0 - v.getD j 0) := by
  induction ts with
  | nil =>
    refine ⟨[], rfl, rfl, fun i d v hd _ => ?_⟩
    exact absurd hd (by simp [dummyTraj])
  | cons t rest ih =>
    obtain ⟨d0, v0, hd0, hv0⟩ := h t (by simp)
    obtain ⟨ts'', h1, h2, h3⟩ := ih (fun t' ht' => h t' (by simp [ht']))
    refine ⟨{ t with advantages := some (List.zipWith (fun a b => a - b) d0 v0) } :: ts'',
      ?_, by simpa using h2, ?_⟩
    · simp [add_advantage, addAdvTraj, hd0, hv0, h1]
    · intro i d v hd hv
      cases i with
      | zero =>
        simp only [List.getD_cons_zero] at hd hv ⊢
        rw [hd0] at hd
        rw [hv0] at hv
        injection hd with hd
        injection hv with hv
        subst hd; subst hv
        refine ⟨List.zipWith (fun a b => a - b) d0 v0, rfl, rfl, fun hlen => ⟨?_, ?_⟩⟩
        · rw [List.length_zipWith, hlen, Nat.min_self]
        · exact zipWith_sub_getD d0 v0 hlen
      | succ i =>
        simp only [List.getD_cons_succ] at hd hv ⊢
        exact h3 i d v hd hv

theorem claim_C3_wit :
    ∃ ts', add_advantage
        [({ tA with disc_sum_rew := some [3, 4], values := some [1, 1] } : Traj ℚ)] =
          some ts' ∧
      ts'.length = 1 ∧
      ∀ (i : ℕ) (d v : List ℚ),
        (([({ tA with disc_sum_rew := some [3, 4], values := some [1, 1] } : Traj ℚ)]).getD
            i dummyTraj).disc_sum_rew = some d →
        (([({ tA with disc_sum_rew := some [3, 4], values := some [1, 1] } : Traj ℚ)]).getD
            i dummyTraj).values = some v →
        ∃ a, (ts'.getD i dummyTraj).advantages = some a ∧
          a = List.zipWith (fun x y => x - y) d v ∧
          (d.length = v.length → a.length = d.length ∧
            ∀ j : ℕ, a.getD j 0 = d.getD j 0 - v.getD j 0) :=
  claim_C3 _ (by intro t ht; refine ⟨[3, 4], [1, 1], ?_, ?_⟩ <;> simp_all)

/-- C10: `add_value` never reads its `gamma` parameter, so its result is the
same for any two values of it. -/
theorem claim_C10 (ts : List (Traj ℚ)) (predict : List (List ℚ) → List ℚ) (γ₁ γ₂ : ℚ) :
    add_value ts predict γ₁ = add_value ts predict γ₂ := rfl

/-! ### run_episode and run_policy -/

/-- Environment capability: `reset()` yields an initial internal state and
observation; `step(action)` yields `(obs, reward, done, info)`, with the
internal state threaded explicitly. -/
structure Env (α : Type) (σ : Type) where
  reset : σ × List α
  step : σ → List α → σ × List α × α × Bool

/-- Policy capability: `sample(observation_row) -> action_row`
(the reshape/astype of the source keeps it a single row). -/
structure Pol (α : Type) where
  sample : List α → List α

/-- Observation transform of `run_episode`:
`obs.astype(np.float64).reshape((1, -1)) / 3.0` followed by
`np.append(obs, [[step/2000]], axis=1)`. -/
def transformObs {α : Type} [Field α] (obs : List α) (step : ℕ) : List α :=
  obs.map (fun x => x / 3) ++ [(step : α) / 2000]

/-- The `while not done` loop of `run_episode`, with explicit fuel (the
source loop runs until the environment reports `done`). -/
def run_episode_loop {α σ : Type} [Field α] (env : Env α σ) (pol : Pol α) :
    ℕ → σ → List α → ℕ → List (List α) → List (List α) → List α →
      Option (List (List α) × List (List α) × List α)
  | 0, _, _, _, _, _, _ => none
  | fuel + 1, s, obs, stepIdx, accO, accA, accR =>
    let tobs := transformObs obs stepIdx
    let act := pol.sample tobs
    match env.step s act with
    | (s', obs', r, done) =>
      if done then some (accO ++ [tobs], accA ++ [act], accR ++ [r])
      else
        run_episode_loop env pol fuel s' obs' (stepIdx + 1)
          (accO ++ [tobs]) (accA ++ [act]) (accR ++ [r])

/-- `run_episode(env, policy)` from `src/main.py` (`animate` dropped: it only
calls `env.render()`). -/
def run_episode {α σ : Type} [Field α] (env : Env α σ) (pol : Pol α) (fuel : ℕ) :
    Option (List (List α) × List (List α) × List α) :=
  run_episode_loop env pol fuel env.reset.1 env.reset.2 0 [] [] []

/-- The trajectory dictionary built by `run_policy` from one episode. -/
def mkTraj {α : Type} (e : List (List α) × List (List α) × List α) : Traj α :=
  { observes := e.1, actions := e.2.1, rewards := e.2.2 }

/-- `np.mean` of a one-dimensional array. -/
def npMean {α : Type} [Field α] (xs : List α) : α := xs.sum / (xs.length : α)

/-- The `while not (steps >= min_steps and episodes >= min_episodes)` loop of
`run_policy`, with explicit fuel.  The successive `run_episode` results are
abstracted as a stream `ep` (the value returned by the i-th call), since the
environment and policy are stateful between calls; `steps` advances by
`observes.shape[0]`. -/
def run_policy_loop {α : Type} [Field α]
    (ep : ℕ → List (List α) × List (List α) × List α) (ms me : ℕ) :
    ℕ → ℕ → ℕ → List (Traj α) → Option (ℕ × List (Traj α))
  | 0, steps, episodes, acc =>
    if ms ≤ steps ∧ me ≤ episodes then some (steps, acc) else none
  | fuel + 1, steps, episodes, acc =>
    if ms ≤ steps ∧ me ≤ episodes then some (steps, acc)
    else
      run_policy_loop ep ms me fuel (steps + (ep episodes).1.length) (episodes + 1)
        (acc ++ [mkTraj (ep episodes)])

/-- `run_policy(env, policy, min_steps, min_episodes)`: collect whole episodes
until both minima are reached, and return the summary log
(`MeanReward`, `Steps`) with the trajectory list. -/
def run_policy {α : Type} [Field α]
    (ep : ℕ → List (List α) × List (List α) × List α) (ms me : ℕ) :
    Option ((α × ℕ) × List (Traj α)) :=
  (run_policy_loop ep ms me (ms + me) 0 0 []).map
    (fun p => ((npMean (p.2.map (fun t => t.rewards.sum)), p.1), p.2))

/-- Total step count of the first `k` episodes of the stream. -/
def stepsUpTo {α : Type} (ep : ℕ → List (List α) × List (List α) × List α) (k : ℕ) : ℕ :=
  ((List.range k).map (fun i => (ep i).1.length)).sum

theorem stepsUpTo_succ {α : Type} (ep : ℕ → List (List α) × List (List α) × List α)
    (k : ℕ) : stepsUpTo ep (k + 1) = stepsUpTo ep k + (ep k).1.length := by
  simp [stepsUpTo, List.range_succ]

theorem run_policy_loop_ok {α : Type} [Field α]
    (ep : ℕ → List (List α) × List (List α) × List α) (ms me : ℕ)
    (hep : ∀ i, 1 ≤ (ep i).1.length) :
    ∀ (fuel e : ℕ), (ms - stepsUpTo ep e) + (me - e) ≤ fuel →
      ∃ k, e ≤ k ∧
        run_policy_loop ep ms me fuel (stepsUpTo ep e) e
            ((List.range e).map (fun i => mkTraj (ep i))) =
          some (stepsUpTo ep k, (List.range k).map (fun i => mkTraj (ep i))) ∧
        ms ≤ stepsUpTo ep k ∧ me ≤ k
  | 0, e, hb => by
    have h1 : ms ≤ stepsUpTo ep e := by omega
    have h2 : me ≤ e := by omega
    exact ⟨e, le_refl e, by simp [run_policy_loop, h1, h2], h1, h2⟩
  | fuel + 1, e, hb => by
    by_cases hcond : ms ≤ stepsUpTo ep e ∧ me ≤ e
    · exact ⟨e, le_refl e, by simp [run_policy_loop, hcond.1, hcond.2], hcond.1, hcond.2⟩
    · have hL := hep e
      have hb' : (ms - stepsUpTo ep (e + 1)) + (me - (e + 1)) ≤ fuel := by
        rw [stepsUpTo_succ]
        omega
      obtain ⟨k, hk, hrun, hms, hme⟩ := run_policy_loop_ok ep ms me hep fuel (e + 1) hb'
      refine ⟨k, by omega, ?_, hms, hme⟩
      rw [run_policy_loop, if_neg hcond, ← stepsUpTo_succ]
      rw [show (List.range e).map (fun i => mkTraj (ep i)) ++ [mkTraj (ep e)] =
          (List.range (e + 1)).map (fun i => mkTraj (ep i)) by
        simp [List.range_succ]]
      exact hrun

/-- C5: `run_policy` returns only once both the accumulated step count has
reached `min_steps` and the episode count has reached `min_episodes`, and
the returned list is exactly the first `k` whole episodes of the stream
(no mid-episode truncation). -/
theorem claim_C5 (ep : ℕ → List (List ℚ) × List (List ℚ) × List ℚ) (ms me : ℕ)
    (hep : ∀ i, 1 ≤ (ep i).1.length) :
    ∃ (k : ℕ) (mean : ℚ) (steps : ℕ),
      run_policy ep ms me = some ((mean, steps), (List.range k).map (fun i => mkTraj (ep i))) ∧
      steps = stepsUpTo ep k ∧ ms ≤ steps ∧ me ≤ k := by
  have h0 : (ms - stepsUpTo ep 0) + (me - 0) ≤ ms + me := by
    simp [stepsUpTo]
  obtain ⟨k, -, hrun, hms, hme⟩ := run_policy_loop_ok ep ms me hep (ms + me) 0 h0
  refine ⟨k, npMean (((List.range k).map (fun i => mkTraj (ep i))).map
    (fun t => t.rewards.sum)), stepsUpTo ep k, ?_, rfl, hms, hme⟩
  have hinit : ((List.range 0).map (fun i => mkTraj (ep i))) = ([] : List (Traj ℚ)) := rfl
  rw [run_policy]
  rw [show stepsUpTo ep 0 = 0 from rfl] at hrun
  rw [hinit] at hrun
  rw [hrun]
  rfl

theorem claim_C5_wit :
    ∃ (k : ℕ) (mean : ℚ) (steps : ℕ),
      run_policy (fun _ => ([[1], [2]], [[0], [0]], [1, 1])) 3 1 =
        some ((mean, steps),
          (List.range k).map (fun i => mkTraj ((fun _ => ([[1], [2]], [[0], [0]], [1, 1])) i))) ∧
      steps = stepsUpTo (fun _ => ([[1], [2]], [[0], [0]], [1, 1])) k ∧ 3 ≤ steps ∧ 1 ≤ k :=
  claim_C5 (fun _ => ([[1], [2]], [[0], [0]], [1, 1])) 3 1 (fun _ => by simp)

/-! ### The 3-step episode scenario -/

theorem getLastD_append_singleton {α : Type} (l : List α) (a d : α) :
    (l ++ [a]).getLastD d = a := by
  rw [getLastD_eq_reverse_headD, List.reverse_append]
  rfl

/-- C6: `run_episode` records, at step `i`, the raw observation divided by 3
with the feature `i/2000` appended; a deterministic 3-step episode yields
arrays of shapes `(3, obs_dim+1)`, `(3, act_dim)`, `(3,)` and appended
step-index column `[0/2000, 1/2000, 2/2000]`. -/
theorem claim_C6 {σ : Type} (env : Env ℚ σ) (pol : Pol ℚ) (od ad : ℕ)
    (s0 : σ) (o0 : List ℚ) (s1 : σ) (o1 : List ℚ) (s2 : σ) (o2 : List ℚ)
    (s3 : σ) (o3 : List ℚ) (r0 r1 r2 : ℚ)
    (hreset : env.reset = (s0, o0))
    (hlen0 : o0.length = od) (hlen1 : o1.length = od) (hlen2 : o2.length = od)
    (hsample : ∀ o : List ℚ, (pol.sample o).length = ad)
    (hstep0 : env.step s0 (pol.sample (transformObs o0 0)) = (s1, o1, r0, false))
    (hstep1 : env.step s1 (pol.sample (transformObs o1 1)) = (s2, o2, r1, false))
    (hstep2 : env.step s2 (pol.sample (transformObs o2 2)) = (s3, o3, r2, true)) :
    ∃ os as rs,
      run_episode env pol 3 = some (os, as, rs) ∧
      os = [o0.map (fun x => x / 3) ++ [((0 : ℕ) : ℚ) / 2000],
            o1.map (fun x => x / 3) ++ [((1 : ℕ) : ℚ) / 2000],
            o2.map (fun x => x / 3) ++ [((2 : ℕ) : ℚ) / 2000]] ∧
      as = [pol.sample (transformObs o0 0), pol.sample (transformObs o1 1),
            pol.sample (transformObs o2 2)] ∧
      rs = [r0, r1, r2] ∧
      os.length = 3 ∧ as.length = 3 ∧ rs.length = 3 ∧
      (∀ row ∈ os, row.length = od + 1) ∧
      (∀ row ∈ as, row.length = ad) ∧
      os.map (fun row => row.getLastD 0) =
        [((0 : ℕ) : ℚ) / 2000, ((1 : ℕ) : ℚ) / 2000, ((2 : ℕ) : ℚ) / 2000] := by
  refine ⟨[o0.map (fun x => x / 3) ++ [((0 : ℕ) : ℚ) / 2000],
           o1.map (fun x => x / 3) ++ [((1 : ℕ) : ℚ) / 2000],
           o2.map (fun x => x / 3) ++ [((2 : ℕ) : ℚ) / 2000]],
          [pol.sample (transformObs o0 0), pol.sample (transformObs o1 1),
           pol.sample (transformObs o2 2)],
          [r0, r1, r2], ?_, rfl, rfl, rfl, rfl, rfl, rfl, ?_, ?_, ?_⟩
  · simp only [run_episode, run_episode_loop, hreset, hstep0, hstep1, hstep2]
    simp [transformObs]
  · intro row hrow
    simp only [List.mem_cons, List.not_mem_nil, or_false] at hrow
    rcases hrow with rfl | rfl | rfl
    · simp [hlen0]
    · simp [hlen1]
    · simp [hlen2]
  · intro row hrow
    simp only [List.mem_cons, List.not_mem_nil, or_false] at hrow
    rcases hrow with rfl | rfl | rfl <;> simp [hsample]
  · simp [getLastD_append_singleton]

/-- Concrete deterministic 3-step environment for the witnesses: state is a
step counter, observation is always `[3]`, reward `1`, `done` after 3 steps. -/
def wEnv : Env ℚ ℕ :=
  { reset := (0, [3]), step := fun s _ => (s + 1, [3], 1, s == 2) }

/-- Concrete constant policy for the witnesses. -/
def wPol : Pol ℚ := { sample := fun _ => [0] }

theorem claim_C6_wit :
    ∃ os as rs,
      run_episode wEnv wPol 3 = some (os, as, rs) ∧
      os = [([3] : List ℚ).map (fun x => x / 3) ++ [((0 : ℕ) : ℚ) / 2000],
            ([3] : List ℚ).map (fun x => x / 3) ++ [((1 : ℕ) : ℚ) / 2000],
            ([3] : List ℚ).map (fun x => x / 3) ++ [((2 : ℕ) : ℚ) / 2000]] ∧
      as = [wPol.sample (transformObs [3] 0), wPol.sample (transformObs [3] 1),
            wPol.sample (transformObs [3] 2)] ∧
      rs = [1, 1, 1] ∧
      os.length = 3 ∧ as.length = 3 ∧ rs.length = 3 ∧
      (∀ row ∈ os, row.length = 1 + 1) ∧
      (∀ row ∈ as, row.length = 1) ∧
      os.map (fun row => row.getLastD 0) =
        [((0 : ℕ) : ℚ) / 2000, ((1 : ℕ) : ℚ) / 2000, ((2 : ℕ) : ℚ) / 2000] :=
  claim_C6 wEnv wPol 1 1 0 [3] 1 [3] 2 [3] 3 [3] 1 1 1 rfl rfl rfl rfl
    (fun _ => rfl) rfl rfl rfl

/-! ### The equal-length invariant -/

theorem run_episode_loop_len {α σ : Type} [Field α] (env : Env α σ) (pol : Pol α) :
    ∀ (fuel : ℕ) (s : σ) (obs : List α) (stepIdx : ℕ)
      (accO accA : List (List α)) (accR : List α)
      (os as : List (List α)) (rs : List α),
      accO.length = accR.length → accA.length = accR.length →
      run_episode_loop env pol fuel s obs stepIdx accO accA accR = some (os, as, rs) →
      os.length = rs.length ∧ as.length = rs.length
  | 0, _, _, _, _, _, _, _, _, _, _, _, h => by simp [run_episode_loop] at h
  | fuel + 1, s, obs, stepIdx, accO, accA, accR, os, as, rs, hO, hA, h => by
    rcases hst : env.step s (pol.sample (transformObs obs stepIdx)) with ⟨s', o', r, done⟩
    simp only [run_episode_loop, hst] at h
    cases done with
    | true =>
      simp only [if_pos, Option.some.injEq, Prod.mk.injEq, if_true] at h
      obtain ⟨h1, h2, h3⟩ := h
      subst h1; subst h2; subst h3
      constructor <;> simp [hO, hA]
    | false =>
      simp only [Bool.false_eq_true, if_false] at h
      exact run_episode_loop_len env pol fuel s' o' (stepIdx + 1) _ _ _ os as rs
        (by simp [hO]) (by simp [hA]) h

theorem add_advantage_mem {α : Type} [Field α] :
    ∀ (ts ts' : List (Traj α)), add_advantage ts = some ts' → ∀ t' ∈ ts',
      ∃ t ∈ ts, ∃ d v, t.disc_sum_rew = some d ∧ t.values = some v ∧
        t'.advantages = some (List.zipWith (fun a b => a - b) d v)
  | [], ts', h, t', ht' => by
    simp only [add_advantage, Option.some.injEq] at h
    subst h
    simp at ht'
  | t :: ts, ts', h, t', ht' => by
    cases hd : t.disc_sum_rew with
    | none => rw [add_advantage] at h; simp [addAdvTraj, hd] at h
    | some d =>
      cases hv : t.values with
      | none => rw [add_advantage] at h; simp [addAdvTraj, hd, hv] at h
      | some v =>
        rw [add_advantage] at h
        have ha : addAdvTraj t =
            some { t with advantages := some (List.zipWith (fun a b => a - b) d v) } := by
          simp [addAdvTraj, hd, hv]
        rw [ha] at h
        cases hrec : add_advantage ts with
        | none => rw [hrec] at h; simp at h
        | some ts'' =>
          rw [hrec] at h
          simp at h
          subst h
          rcases List.mem_cons.mp ht' with rfl | hmem
          · exact ⟨t, by simp, d, v, hd, hv, rfl⟩
          · obtain ⟨t0, ht0, d0, v0, hd0, hv0, hadv⟩ :=
              add_advantage_mem ts ts'' hrec t' hmem
            exact ⟨t0, by simp [ht0], d0, v0, hd0, hv0, hadv⟩

theorem add_advantage_getD {α : Type} [Field α] :
    ∀ (ts ts' : List (Traj α)), add_advantage ts = some ts' →
      ts'.length = ts.length ∧
      ∀ (i : ℕ) (d v : List α),
        (ts.getD i dummyTraj).disc_sum_rew = some d →
        (ts.getD i dummyTraj).values = some v →
        (ts'.getD i dummyTraj).advantages = some (List.zipWith (fun a b => a - b) d v)
  | [], ts', h => by
    simp only [add_advantage, Option.some.injEq] at h
    subst h
    exact ⟨rfl, fun i d v hd _ => absurd hd (by simp [dummyTraj])⟩
  | t :: ts, ts', h => by
    cases hd0 : t.disc_sum_rew with
    | none => rw [add_advantage] at h; simp [addAdvTraj, hd0] at h
    | some d0 =>
      cases hv0 : t.values with
      | none => rw [add_advantage] at h; simp [addAdvTraj, hd0, hv0] at h
      | some v0 =>
        rw [add_advantage] at h
        have ha : addAdvTraj t =
            some { t with advantages := some (List.zipWith (fun a b => a - b) d0 v0) } := by
          simp [addAdvTraj, hd0, hv0]
        rw [ha] at h
        cases hrec : add_advantage ts with
        | none => rw [hrec] at h; simp at h
        | some ts'' =>
          rw [hrec] at h
          simp at h
          subst h
          obtain ⟨hlen, hrest⟩ := add_advantage_getD ts ts'' hrec
          refine ⟨by simp [hlen], ?_⟩
          intro i d v hd hv
          cases i with
          | zero =>
            simp only [List.getD_cons_zero] at hd hv ⊢
            rw [hd0] at hd
            rw [hv0] at hv
            injection hd with hd
            injection hv with hv
            subst hd; subst hv
            rfl
          | succ i =>
            simp only [List.getD_cons_succ] at hd hv ⊢
            exact hrest i d v hd hv

/-- C7: every per-timestep sequence of one trajectory has the same length and
every pass preserves that: `run_episode` returns equally long `observes`,
`actions`, `rewards`; `add_disc_sum_rew` attaches a list of the rewards'
length; `add_value` attaches one scalar per observation row (assuming its
`predict` does); `add_advantage` attaches to the trajectory at each position
`i` a list of the common length of that same trajectory's `disc_sum_rew`
and `values`. -/
theorem claim_C7 :
    (∀ (σ : Type) (env : Env ℚ σ) (pol : Pol ℚ) (fuel : ℕ)
        (os as : List (List ℚ)) (rs : List ℚ),
        run_episode env pol fuel = some (os, as, rs) →
        os.length = rs.length ∧ as.length = rs.length) ∧
    (∀ (γ : ℚ) (ts : List (Traj ℚ)) (t' : Traj ℚ), t' ∈ add_disc_sum_rew ts γ →
        ∃ d, t'.disc_sum_rew = some d ∧ d.length = t'.rewards.length) ∧
    (∀ (γ : ℚ) (predict : List (List ℚ) → List ℚ) (ts : List (Traj ℚ)) (t' : Traj ℚ),
        (∀ o, (predict o).length = o.length) →
        t' ∈ add_value ts predict γ →
        ∃ v, t'.values = some v ∧ v.length = t'.observes.length) ∧
    (∀ (ts ts' : List (Traj ℚ)), add_advantage ts = some ts' →
        ts'.length = ts.length ∧
        ∀ (i : ℕ) (d v : List ℚ),
          (ts.getD i dummyTraj).disc_sum_rew = some d →
          (ts.getD i dummyTraj).values = some v →
          ∃ a, (ts'.getD i dummyTraj).advantages = some a ∧
            (d.length = v.length → a.length = d.length)) := by
  refine ⟨?_, ?_, ?_, ?_⟩
  · intro σ env pol fuel os as rs h
    exact run_episode_loop_len env pol fuel env.reset.1 env.reset.2 0 [] [] [] os as rs
      rfl rfl h
  · intro γ ts t' ht
    rcases List.mem_map.mp ht with ⟨t, -, rfl⟩
    exact ⟨discSumRew γ t.rewards, rfl, discSumRew_length γ t.rewards⟩
  · intro γ predict ts t' hpred ht
    rcases List.mem_map.mp ht with ⟨t, -, rfl⟩
    exact ⟨predict t.observes, rfl, hpred t.observes⟩
  · intro ts ts' h
    obtain ⟨hlen, hrest⟩ := add_advantage_getD ts ts' h
    refine ⟨hlen, fun i d v hd hv => ?_⟩
    refine ⟨List.zipWith (fun a b => a - b) d v, hrest i d v hd hv, fun hl => ?_⟩
    rw [List.length_zipWith, hl, Nat.min_self]

/-- Fully keyed two-step trajectory for the positional witnesses. -/
def tB : Traj ℚ := { tA with disc_sum_rew := some [3, 4], values := some [1, 1] }

/-- `tB` after `add_advantage`. -/
def tBadv : Traj ℚ := { tB with advantages := some (List.zipWith (fun a b => a - b) [3, 4] [1, 1]) }

/-- Fully keyed one-step trajectory (a different length than `tB`). -/
def tC : Traj ℚ := { observes := [[7]], actions := [[8]], rewards := [5], disc_sum_rew := some [9], values := some [4] }

/-- `tC` after `add_advantage`. -/
def tCadv : Traj ℚ := { tC with advantages := some (List.zipWith (fun a b => a - b) [9] [4]) }

theorem claim_C7_wit :
    (([transformObs [3] 0, transformObs [3] 1, transformObs [3] 2] : List (List ℚ)).length =
        ([1, 1, 1] : List ℚ).length ∧
      ([[0], [0], [0]] : List (List ℚ)).length = ([1, 1, 1] : List ℚ).length) ∧
    (∃ d, (addDiscTraj (1/2) tA).disc_sum_rew = some d ∧
        d.length = (addDiscTraj (1/2) tA).rewards.length) ∧
    (∃ v, ({ tA with values := some (tA.observes.map (fun o => o.headD 0)) } : Traj ℚ).values =
          some v ∧
        v.length =
          ({ tA with values := some (tA.observes.map (fun o => o.headD 0)) } : Traj ℚ).observes.length) ∧
    (([tBadv, tCadv] : List (Traj ℚ)).length = ([tB, tC] : List (Traj ℚ)).length ∧
      ∀ (i : ℕ) (d v : List ℚ),
        (([tB, tC] : List (Traj ℚ)).getD i dummyTraj).disc_sum_rew = some d →
        (([tB, tC] : List (Traj ℚ)).getD i dummyTraj).values = some v →
        ∃ a, (([tBadv, tCadv] : List (Traj ℚ)).getD i dummyTraj).advantages = some a ∧
          (d.length = v.length → a.length = d.length)) := by
  refine ⟨claim_C7.1 ℕ wEnv wPol 3 _ _ _ rfl,
          claim_C7.2.1 (1/2) [tA] _ (by simp [add_disc_sum_rew]),
          claim_C7.2.2.1 0 (fun rows => rows.map (fun o => o.headD 0)) [tA] _
            (fun o => by simp) (by simp [add_value]),
          claim_C7.2.2.2 [tB, tC] [tBadv, tCadv] rfl⟩

/-! ### build_train_set over the reals -/

/-- `np.std`: population standard deviation. -/
noncomputable def npStd (xs : List ℝ) : ℝ :=
  Real.sqrt ((xs.map (fun x => (x - npMean xs) ^ 2)).sum / (xs.length : ℝ))

/-- `np.concatenate([t['disc_sum_rew'] for t in trajectories])`; `none` models
the `KeyError` on a trajectory missing the key. -/
def collectDisc {α : Type} : List (Traj α) → Option (List α)
  | [] => some []
  | t :: ts => do
    let d ← t.disc_sum_rew
    let rest ← collectDisc ts
    pure (d ++ rest)

/-- `np.concatenate([t['advantages'] for t in trajectories])`. -/
def collectAdv {α : Type} : List (Traj α) → Option (List α)
  | [] => some []
  | t :: ts => do
    let a ← t.advantages
    let rest ← collectAdv ts
    pure (a ++ rest)

/-- `build_train_set(trajectories)` from `src/main.py`: flatten the four
per-trajectory arrays and normalize the freshly concatenated advantages as
`(advantages - advantages.mean()) / (advantages.std() + 1e-8)`. -/
noncomputable def build_train_set (ts : List (Traj ℝ)) :
    Option (List (List ℝ) × List (List ℝ) × List ℝ × List ℝ) := do
  let disc ← collectDisc ts
  let advRaw ← collectAdv ts
  pure ((ts.map (fun t => t.observes)).flatten,
        (ts.map (fun t => t.actions)).flatten,
        advRaw.map (fun x => (x - npMean advRaw) / (npStd advRaw + 1 / 10 ^ 8)),
        disc)

theorem collectDisc_some {α : Type} :
    ∀ ts : List (Traj α),
      (∀ t ∈ ts, ∃ d, t.disc_sum_rew = some d ∧ d.length = t.rewards.length) →
      ∃ D, collectDisc ts = some D ∧ D.length = (ts.map (fun t => t.rewards.length)).sum
  | [], _ => ⟨[], rfl, rfl⟩
  | t :: ts, h => by
    obtain ⟨d, hd, hlen⟩ := h t (by simp)
    obtain ⟨D, hD, hDlen⟩ := collectDisc_some ts (fun t' ht' => h t' (by simp [ht']))
    refine ⟨d ++ D, ?_, by simp [hlen, hDlen]⟩
    rw [collectDisc, hd, hD]
    rfl

theorem collectAdv_some {α : Type} :
    ∀ ts : List (Traj α),
      (∀ t ∈ ts, ∃ a, t.advantages = some a ∧ a.length = t.rewards.length) →
      ∃ A, collectAdv ts = some A ∧ A.length = (ts.map (fun t => t.rewards.length)).sum
  | [], _ => ⟨[], rfl, rfl⟩
  | t :: ts, h => by
    obtain ⟨a, ha, hlen⟩ := h t (by simp)
    obtain ⟨A, hA, hAlen⟩ := collectAdv_some ts (fun t' ht' => h t' (by simp [ht']))
    refine ⟨a ++ A, ?_, by simp [hlen, hAlen]⟩
    rw [collectAdv, ha, hA]
    rfl

theorem sum_map_center_div :
    ∀ (xs : List ℝ) (μ c : ℝ),
      (xs.map (fun x => (x - μ) / c)).sum = (xs.sum - xs.length * μ) / c
  | [], μ, c => by simp
  | x :: xs, μ, c => by
    simp only [List.map_cons, List.sum_cons, sum_map_center_div xs μ c, List.length_cons]
    push_cast
    ring

theorem sum_map_center_sq_div :
    ∀ (xs : List ℝ) (μ c : ℝ),
      (xs.map (fun x => ((x - μ) / c) ^ 2)).sum = (xs.map (fun x => (x - μ) ^ 2)).sum / c ^ 2
  | [], _, _ => by simp
  | x :: xs, μ, c => by
    simp only [List.map_cons, List.sum_cons, sum_map_center_sq_div xs μ c]
    ring

theorem npMean_center_div (xs : List ℝ) (hne : xs ≠ []) (c : ℝ) :
    npMean (xs.map (fun x => (x - npMean xs) / c)) = 0 := by
  have hn : (xs.length : ℝ) ≠ 0 :=
    Nat.cast_ne_zero.mpr (List.length_pos.mpr hne).ne'
  rw [npMean, sum_map_center_div, List.length_map]
  have hz : xs.sum - (xs.length : ℝ) * npMean xs = 0 := by
    rw [npMean]
    field_simp
  rw [hz]
  simp

theorem npStd_center_div (xs : List ℝ) (hne : xs ≠ []) (c : ℝ) (hc : 0 < c) :
    npStd (xs.map (fun x => (x - npMean xs) / c)) = npStd xs / c := by
  have hmean0 := npMean_center_div xs hne c
  rw [npStd, hmean0]
  have hcomp : (xs.map (fun x => (x - npMean xs) / c)).map (fun y => (y - 0) ^ 2) =
      xs.map (fun x => ((x - npMean xs) / c) ^ 2) := by
    rw [List.map_map]
    simp [Function.comp]
  rw [hcomp, sum_map_center_sq_div, List.length_map]
  have hnum : 0 ≤ (xs.map (fun x => (x - npMean xs) ^ 2)).sum / (xs.length : ℝ) := by
    apply div_nonneg
    · apply List.sum_nonneg
      intro y hy
      rcases List.mem_map.mp hy with ⟨x, -, rfl⟩
      positivity
    · exact Nat.cast_nonneg _
  rw [div_div, mul_comm (c ^ 2), ← div_div, Real.sqrt_div hnum, Real.sqrt_sq hc.le, npStd]

/-- C4: when all trajectories carry their four equal-length arrays,
`build_train_set` succeeds, the four returned arrays all have first
dimension `N` = total step count, the returned advantages are the fresh
concatenation normalized by `(a - mean a) / (std a + 1e-8)`, and (in exact
arithmetic) the result has mean exactly 0 and standard deviation
`σ/(σ + 1e-8)`, i.e. within `1e-8/(σ + 1e-8)` of 1. -/
theorem claim_C4 (ts : List (Traj ℝ)) (flat : List ℝ)
    (hlen : ∀ t ∈ ts,
      t.observes.length = t.rewards.length ∧ t.actions.length = t.rewards.length ∧
      (∃ d, t.disc_sum_rew = some d ∧ d.length = t.rewards.length) ∧
      (∃ a, t.advantages = some a ∧ a.length = t.rewards.length))
    (hflat : collectAdv ts = some flat) (hne : flat ≠ []) (hstd : 0 < npStd flat) :
    ∃ O A ADV D, build_train_set ts = some (O, A, ADV, D) ∧
      O.length = (ts.map (fun t => t.rewards.length)).sum ∧
      A.length = (ts.map (fun t => t.rewards.length)).sum ∧
      ADV.length = (ts.map (fun t => t.rewards.length)).sum ∧
      D.length = (ts.map (fun t => t.rewards.length)).sum ∧
      ADV = flat.map (fun x => (x - npMean flat) / (npStd flat + 1 / 10 ^ 8)) ∧
      npMean ADV = 0 ∧
      npStd ADV = npStd flat / (npStd flat + 1 / 10 ^ 8) ∧
      1 - npStd ADV = (1 / 10 ^ 8) / (npStd flat + 1 / 10 ^ 8) := by
  obtain ⟨D, hD, hDlen⟩ := collectDisc_some ts (fun t ht => (hlen t ht).2.2.1)
  obtain ⟨A0, hA0, hA0len⟩ := collectAdv_some ts (fun t ht => (hlen t ht).2.2.2)
  have hfl : A0 = flat := by
    rw [hA0] at hflat
    exact Option.some_inj.mp hflat
  subst hfl
  have hc : (0 : ℝ) < npStd A0 + 1 / 10 ^ 8 := by
    have : (0 : ℝ) < 1 / 10 ^ 8 := by norm_num
    linarith
  refine ⟨(ts.map (fun t => t.observes)).flatten, (ts.map (fun t => t.actions)).flatten,
    A0.map (fun x => (x - npMean A0) / (npStd A0 + 1 / 10 ^ 8)), D, ?_, ?_, ?_, ?_, ?_,
    rfl, npMean_center_div A0 hne _, npStd_center_div A0 hne _ hc, ?_⟩
  · rw [build_train_set, hD, hA0]
    rfl
  · rw [List.length_flatten, List.map_map]
    exact congrArg List.sum (List.map_congr_left (fun t ht => (hlen t ht).1))
  · rw [List.length_flatten, List.map_map]
    exact congrArg List.sum (List.map_congr_left (fun t ht => (hlen t ht).2.1))
  · rw [List.length_map]
    exact hA0len
  · exact hDlen
  · rw [npStd_center_div A0 hne _ hc]
    field_simp

/-- Concrete real-valued processed trajectory whose advantages have mean 0
and standard deviation exactly 1 (so `npStd` evaluates via `sqrt 1`). -/
def tR : Traj ℝ := { observes := [[1], [2]], actions := [[5], [6]], rewards := [1, 1], disc_sum_rew := some [2, 2], values := some [0, 0], advantages := some [1, -1] }

theorem claim_C4_wit :
    ∃ O A ADV D, build_train_set [tR] = some (O, A, ADV, D) ∧
      O.length = ([tR].map (fun t => t.rewards.length)).sum ∧
      A.length = ([tR].map (fun t => t.rewards.length)).sum ∧
      ADV.length = ([tR].map (fun t => t.rewards.length)).sum ∧
      D.length = ([tR].map (fun t => t.rewards.length)).sum ∧
      ADV = ([1, -1] : List ℝ).map
        (fun x => (x - npMean [1, -1]) / (npStd [1, -1] + 1 / 10 ^ 8)) ∧
      npMean ADV = 0 ∧
      npStd ADV = npStd [1, -1] / (npStd [1, -1] + 1 / 10 ^ 8) ∧
      1 - npStd ADV = (1 / 10 ^ 8) / (npStd [1, -1] + 1 / 10 ^ 8) :=
  claim_C4 [tR] [1, -1]
    (by
      intro t ht
      simp only [List.mem_singleton] at ht
      subst ht
      exact ⟨rfl, rfl, ⟨[2, 2], rfl, rfl⟩, ⟨[1, -1], rfl, rfl⟩⟩)
    rfl
    (by simp)
    (by
      simp only [npStd]
      rw [Real.sqrt_pos]
      norm_num [npMean])

/-! ### build_train_set leaves the batch unchanged -/

theorem collectAdv_flatten {α : Type} :
    ∀ (ts : List (Traj α)) (flat : List α), collectAdv ts = some flat →
      flat = (ts.map (fun t => t.advantages.getD [])).flatten ∧
      ∀ t ∈ ts, ∃ a, t.advantages = some a
  | [], flat, h => by
    simp only [collectAdv, Option.some.injEq] at h
    subst h
    simp
  | t :: ts, flat, h => by
    cases ha : t.advantages with
    | none => rw [collectAdv, ha] at h; simp at h
    | some a =>
      rw [collectAdv, ha] at h
      cases hrec : collectAdv ts with
      | none => rw [hrec] at h; simp at h
      | some rest =>
        rw [hrec] at h
        simp at h
        subst h
        obtain ⟨h1, h2⟩ := collectAdv_flatten ts rest hrec
        refine ⟨by simp [ha, h1], ?_⟩
        intro t' ht'
        rcases List.mem_cons.mp ht' with rfl | hm
        · exact ⟨a, ha⟩
        · exact h2 t' hm

/-- C9: the normalization inside `build_train_set` is applied only to the
freshly concatenated flat array; the input trajectory records are returned
to the caller untouched (the embedding is pure: `np.concatenate` copies and
the normalized array is a rebound local).  Each trajectory still carries the
original unnormalized advantages, whose concatenation is exactly the array
that was normalized. -/
theorem claim_C9 (ts : List (Traj ℝ)) (O A : List (List ℝ)) (ADV D : List ℝ)
    (h : build_train_set ts = some (O, A, ADV, D)) :
    ∃ flat, collectAdv ts = some flat ∧
      flat = (ts.map (fun t => t.advantages.getD [])).flatten ∧
      ADV = flat.map (fun x => (x - npMean flat) / (npStd flat + 1 / 10 ^ 8)) ∧
      ∀ t ∈ ts, t.advantages = some (t.advantages.getD []) := by
  cases hD : collectDisc ts with
  | none => rw [build_train_set, hD] at h; simp at h
  | some D0 =>
    cases hA : collectAdv ts with
    | none => rw [build_train_set, hD, hA] at h; simp at h
    | some flat =>
      rw [build_train_set, hD, hA] at h
      simp at h
      obtain ⟨-, -, hADV, -⟩ := h
      obtain ⟨hfl, hall⟩ := collectAdv_flatten ts flat hA
      refine ⟨flat, rfl, hfl, by simpa [one_div] using hADV.symm, ?_⟩
      intro t ht
      obtain ⟨a, ha⟩ := hall t ht
      simp [ha]

theorem claim_C9_wit :
    ∃ flat, collectAdv [tR] = some flat ∧
      flat = ([tR].map (fun t => t.advantages.getD [])).flatten ∧
      List.map (fun x => (x - npMean [1, -1]) / (npStd [1, -1] + 1 / 10 ^ 8)) [1, -1] =
        flat.map (fun x => (x - npMean flat) / (npStd flat + 1 / 10 ^ 8)) ∧
      ∀ t ∈ [tR], t.advantages = some (t.advantages.getD []) :=
  claim_C9 [tR] [[1], [2]] [[5], [6]]
    (List.map (fun x => (x - npMean [1, -1]) / (npStd [1, -1] + 1 / 10 ^ 8)) [1, -1])
    [2, 2] rfl

/-! ### disp_log -/

def iterKey : String := "Iteration"

def mrKey : String := "MeanReward"

/-- Order on log entries by key (Python's `list.sort()` on the key strings,
which compares code points, as does `String` order here). -/
def keyLE {α : Type} (a b : String × α) : Prop := a.1 ≤ b.1

instance {α : Type} : DecidableRel (@keyLE α) :=
  fun a b => inferInstanceAs (Decidable (a.1 ≤ b.1))

instance {α : Type} : IsTotal (String × α) keyLE :=
  ⟨fun a b => le_total a.1 b.1⟩

instance {α : Type} : IsTrans (String × α) keyLE :=
  ⟨fun _ _ _ h1 h2 => le_trans h1 h2⟩

/-- The strings printed by `disp_log(log)`, one list entry per `print` call.
The log dictionary is an association list with distinct keys, so sorting the
entries by key embeds the source's `log_keys.sort()` followed by `log[key]`
lookups.  The numeric renderings of the formats `'{}'`, `'{:.0f}'` and
`'{:.3g}'` are abstract formatter parameters (binary floating-point string
formatting); `none` models the `KeyError` raised when `'Iteration'` or
`'MeanReward'` is missing. -/
def disp_log {α : Type} (fmtIter fmtR fmtV : α → String) (log : List (String × α)) :
    Option (List String) := do
  let it ← List.lookup iterKey log
  let mr ← List.lookup mrKey log
  pure ((("***** Iteration ") ++ fmtIter it ++ (", Mean R = ") ++ fmtR mr ++ (" *****")) ::
    ((log.insertionSort keyLE).filterMap (fun kv =>
      if kv.1 ≠ iterKey ∧ kv.1 ≠ mrKey then some (kv.1 ++ (": ") ++ fmtV kv.2) else none)) ++
    [("\n")])

/-- C8: given a log carrying `'Iteration'` and `'MeanReward'`, `disp_log`
prints the header line with both values first, then all other keys,
sorted alphabetically (a permutation of the log entries), one `key: value`
line each with the two header keys excluded, followed by a final blank
line. -/
theorem claim_C8 {fmtIter fmtR fmtV : ℚ → String} (log : List (String × ℚ)) (it mr : ℚ)
    (hit : List.lookup iterKey log = some it) (hmr : List.lookup mrKey log = some mr) :
    ∃ lines, disp_log fmtIter fmtR fmtV log = some lines ∧
      lines = (("***** Iteration ") ++ fmtIter it ++ (", Mean R = ") ++ fmtR mr ++
          (" *****")) ::
        ((log.insertionSort keyLE).filterMap (fun kv =>
          if kv.1 ≠ iterKey ∧ kv.1 ≠ mrKey then some (kv.1 ++ (": ") ++ fmtV kv.2)
          else none)) ++ [("\n")] ∧
      (log.insertionSort keyLE).Sorted keyLE ∧
      (log.insertionSort keyLE).Perm log := by
  refine ⟨_, ?_, rfl, List.sorted_insertionSort keyLE log, List.perm_insertionSort keyLE log⟩
  rw [disp_log, hit, hmr]
  rfl

def plKey : String := "PolicyLoss"

def wLog : List (String × ℚ) := [(iterKey, 3), (mrKey, 12), (plKey, 1/2)]

def wFmt : ℚ → String := fun _ => ("x")

theorem claim_C8_wit :
    ∃ lines, disp_log wFmt wFmt wFmt wLog = some lines ∧
      lines = (("***** Iteration ") ++ wFmt 3 ++ (", Mean R = ") ++ wFmt 12 ++
          (" *****")) ::
        ((wLog.insertionSort keyLE).filterMap (fun kv =>
          if kv.1 ≠ iterKey ∧ kv.1 ≠ mrKey then some (kv.1 ++ (": ") ++ wFmt kv.2)
          else none)) ++ [("\n")] ∧
      (wLog.insertionSort keyLE).Sorted keyLE ∧
      (wLog.insertionSort keyLE).Perm wLog :=
  claim_C8 wLog 3 12 rfl rfl
